import Mathlib

/-!
# Birthday reminder bot: verification of the date engine and reminder scheduler

A shallow embedding of the core logic of the birthday-reminder program
(`database.py` and `main.py`):

* a proleptic Gregorian calendar (`Date`, `isLeap`, `toOrdinal`) matching
  Python's `datetime.date` (valid years 1..9999, `(d2 - d1).days` is the
  difference of ordinals, comparison is lexicographic on (year, month, day));
* `calculate_age` and `days_until_birthday` from `database.py` (fallible date
  construction, as in Python's `date(...)` constructor, is `Option`-valued);
* `get_all_people` (SQL filter by `user_id` with Python truthiness on the
  optional argument, `ORDER BY name`, derived `age`/`days_until` fields);
* one tick of the `send_birthday_reminders` loop from `main.py` (grouping by
  owner, the `active_users` reachability set, per-person delivery attempts and
  eviction on delivery failure);
* the date-input step `process_date` of the add-person dialog.
-/

/-- A calendar date, as Python's `datetime.date` triple. -/
structure Date where
  year : Nat
  month : Nat
  day : Nat
deriving DecidableEq, Repr

/-- Gregorian leap-year rule, as implemented by Python's `calendar`/`datetime`. -/
def isLeap (y : Nat) : Bool :=
  (y % 4 == 0 && y % 100 != 0) || (y % 400 == 0)

/-- Number of days in a month (month numbers 1..12; 0 elsewhere). -/
def daysInMonth (leap : Bool) : Nat → Nat
  | 1 => 31
  | 2 => if leap then 29 else 28
  | 3 => 31
  | 4 => 30
  | 5 => 31
  | 6 => 30
  | 7 => 31
  | 8 => 31
  | 9 => 30
  | 10 => 31
  | 11 => 30
  | 12 => 31
  | _ => 0

/-- Days in the months strictly before month `m` of a year. -/
def monthsBefore (leap : Bool) : Nat → Nat
  | 0 => 0
  | m + 1 => monthsBefore leap m + daysInMonth leap m

/-- Ordinal day within the year (Jan 1 is day 1). -/
def dayOfYear (leap : Bool) (m d : Nat) : Nat :=
  monthsBefore leap m + d

/-- Leap days in years strictly before year `y` (years counted from 1). -/
def leapsBefore (y : Nat) : Nat :=
  (y - 1) / 4 - (y - 1) / 100 + (y - 1) / 400

/-- Days in all years strictly before year `y`. -/
def daysBeforeYear (y : Nat) : Nat :=
  365 * (y - 1) + leapsBefore y

/-- Python's `date.toordinal`: day number counted from 0001-01-01 = 1. -/
def toOrdinal (dt : Date) : Nat :=
  daysBeforeYear dt.year + dayOfYear (isLeap dt.year) dt.month dt.day

/-- The constraint enforced by Python's `date(year, month, day)` constructor. -/
def Date.Valid (dt : Date) : Prop :=
  1 ≤ dt.year ∧ dt.year ≤ 9999 ∧ 1 ≤ dt.month ∧ dt.month ≤ 12 ∧
    1 ≤ dt.day ∧ dt.day ≤ daysInMonth (isLeap dt.year) dt.month

instance (dt : Date) : Decidable dt.Valid := by
  unfold Date.Valid
  infer_instance

/-- Python's `date(y, m, d)`: `none` models the `ValueError` raised on an
invalid triple (including years outside 1..9999). -/
def mkDate (y m d : Nat) : Option Date :=
  if Date.Valid ⟨y, m, d⟩ then some ⟨y, m, d⟩ else none

/-- Python's `<` on `date` objects: lexicographic on (year, month, day). -/
def dateLt (a b : Date) : Prop :=
  a.year < b.year ∨ (a.year = b.year ∧
    (a.month < b.month ∨ (a.month = b.month ∧ a.day < b.day)))

instance (a b : Date) : Decidable (dateLt a b) := by
  unfold dateLt
  infer_instance

/-- Python's `<=` on `date` objects. -/
def dateLe (a b : Date) : Prop :=
  dateLt a b ∨ a = b

instance (a b : Date) : Decidable (dateLe a b) := by
  unfold dateLe
  infer_instance

/-- Python's lexicographic `<` on `(month, day)` pairs. -/
def pairLt (a b : Nat × Nat) : Prop :=
  a.1 < b.1 ∨ (a.1 = b.1 ∧ a.2 < b.2)

instance (a b : Nat × Nat) : Decidable (pairLt a b) := by
  unfold pairLt
  infer_instance

/-- `BirthdayDatabase.calculate_age` from `database.py`:
`age = today.year - birthday.year`, minus one when
`(today.month, today.day) < (birthday.month, birthday.day)`. -/
def calculate_age (birthday today : Date) : Int :=
  let age : Int := (today.year : Int) - (birthday.year : Int)
  if pairLt (today.month, today.day) (birthday.month, birthday.day) then age - 1 else age

/-- `BirthdayDatabase.days_until_birthday` from `database.py`.
`next_birthday = date(today.year, birthday.month, birthday.day)`; if it is
before `today`, retry with `today.year + 1`; return 0 if it equals `today`,
else `(next_birthday - today).days`.  `none` models the uncaught `ValueError`
when a constructed date is invalid (e.g. Feb 29 in a non-leap year). -/
def days_until_birthday (birthday today : Date) : Option Int :=
  (mkDate today.year birthday.month birthday.day).bind fun nb =>
    if dateLt nb today then
      (mkDate (today.year + 1) birthday.month birthday.day).bind fun nb2 =>
        if nb2 = today then some 0
        else some ((toOrdinal nb2 : Int) - (toOrdinal today : Int))
    else
      if nb = today then some 0
      else some ((toOrdinal nb : Int) - (toOrdinal today : Int))

/-- The calendar successor of a date: Python's `d + timedelta(days=1)`. -/
def succDate (dt : Date) : Date :=
  if dt.day < daysInMonth (isLeap dt.year) dt.month then ⟨dt.year, dt.month, dt.day + 1⟩
  else if dt.month < 12 then ⟨dt.year, dt.month + 1, 1⟩
  else ⟨dt.year + 1, 1, 1⟩

/-! ## Calendar arithmetic lemmas -/

theorem monthsBefore_mono (leap : Bool) {m m' : Nat} (h : m ≤ m') :
    monthsBefore leap m ≤ monthsBefore leap m' := by
  induction h with
  | refl => exact Nat.le_refl _
  | step _ ih => exact Nat.le_trans ih (Nat.le_add_right _ _)

theorem add_daysInMonth_le_monthsBefore (leap : Bool) {m m' : Nat} (h : m < m') :
    monthsBefore leap m + daysInMonth leap m ≤ monthsBefore leap m' := by
  have h1 : monthsBefore leap (m + 1) ≤ monthsBefore leap m' := monthsBefore_mono leap h
  exact h1

theorem monthsBefore_thirteen (leap : Bool) :
    monthsBefore leap 13 = if leap then 366 else 365 := by
  cases leap <;> decide

theorem dayOfYear_pos (leap : Bool) {m d : Nat} (hd : 1 ≤ d) :
    1 ≤ dayOfYear leap m d := by
  unfold dayOfYear
  omega

theorem dayOfYear_le (leap : Bool) {m d : Nat} (h2 : m ≤ 12)
    (h3 : d ≤ daysInMonth leap m) :
    dayOfYear leap m d ≤ if leap then 366 else 365 := by
  have h4 : monthsBefore leap m + daysInMonth leap m ≤ monthsBefore leap 13 :=
    add_daysInMonth_le_monthsBefore leap (by omega)
  have h5 := monthsBefore_thirteen leap
  unfold dayOfYear
  omega

theorem dayOfYear_lt (leap : Bool) {m d m' d' : Nat}
    (hd : d ≤ daysInMonth leap m) (hd' : 1 ≤ d')
    (h : pairLt (m, d) (m', d')) :
    dayOfYear leap m d < dayOfYear leap m' d' := by
  have h' : m < m' ∨ (m = m' ∧ d < d') := by simpa [pairLt] using h
  unfold dayOfYear
  rcases h' with hm | ⟨hm, hdd⟩
  · have := add_daysInMonth_le_monthsBefore leap hm
    omega
  · subst hm
    omega

theorem daysInMonth_le_31 (leap : Bool) {m : Nat} (h : m ≤ 12) :
    daysInMonth leap m ≤ 31 := by
  interval_cases m <;> cases leap <;> decide

theorem daysInMonth_pos (leap : Bool) {m : Nat} (h1 : 1 ≤ m) (h2 : m ≤ 12) :
    1 ≤ daysInMonth leap m := by
  interval_cases m <;> cases leap <;> decide

theorem monthsBefore_leap_bounds (m : Nat) (h : m ≤ 13) :
    monthsBefore false m ≤ monthsBefore true m ∧
      monthsBefore true m ≤ monthsBefore false m + 1 := by
  interval_cases m <;> exact ⟨by decide, by decide⟩

theorem isLeap_succ_of_isLeap {y : Nat} (h : isLeap y = true) :
    isLeap (y + 1) = false := by
  simp only [isLeap, Bool.or_eq_true, Bool.and_eq_true, beq_iff_eq, bne_iff_ne, ne_eq,
    Bool.or_eq_false_iff, Bool.and_eq_false_iff, beq_eq_false_iff_ne,
    bne_eq_false_iff_eq] at h ⊢
  omega

theorem leapsBefore_succ (y : Nat) (hy : 1 ≤ y) :
    leapsBefore (y + 1) = leapsBefore y + (if isLeap y then 1 else 0) := by
  obtain ⟨n, rfl⟩ : ∃ n, y = n + 1 := ⟨y - 1, by omega⟩
  have h4 := Nat.succ_div n 4
  have h100 := Nat.succ_div n 100
  have h400 := Nat.succ_div n 400
  have hba : n / 100 ≤ n / 4 := Nat.div_le_div_left (by norm_num) (by norm_num)
  have hL : (if isLeap (n + 1) then (1 : Nat) else 0)
      = (if ((n + 1) % 4 = 0 ∧ ¬(n + 1) % 100 = 0) ∨ (n + 1) % 400 = 0 then 1 else 0) := by
    cases hb : isLeap (n + 1) with
    | false =>
      have hx : ¬(((n + 1) % 4 = 0 ∧ ¬(n + 1) % 100 = 0) ∨ (n + 1) % 400 = 0) := by
        simp only [isLeap, Bool.or_eq_false_iff, Bool.and_eq_false_iff, beq_eq_false_iff_ne,
          ne_eq, bne_eq_false_iff_eq, beq_iff_eq] at hb
        omega
      simp [hx]
    | true =>
      have hx : ((n + 1) % 4 = 0 ∧ ¬(n + 1) % 100 = 0) ∨ (n + 1) % 400 = 0 := by
        simp only [isLeap, Bool.or_eq_true, Bool.and_eq_true, beq_iff_eq, bne_iff_ne,
          ne_eq] at hb
        omega
      simp [hx]
  unfold leapsBefore
  simp only [Nat.add_sub_cancel]
  rw [hL]
  split_ifs <;> omega

theorem daysBeforeYear_succ (y : Nat) (hy : 1 ≤ y) :
    daysBeforeYear (y + 1) = daysBeforeYear y + (if isLeap y then 366 else 365) := by
  unfold daysBeforeYear
  rw [leapsBefore_succ y hy]
  split_ifs <;> omega

theorem daysBeforeYear_mono {y y' : Nat} (hy : 1 ≤ y) (h : y ≤ y') :
    daysBeforeYear y ≤ daysBeforeYear y' := by
  induction y', h using Nat.le_induction with
  | base => exact Nat.le_refl _
  | succ k hk ih =>
    have := daysBeforeYear_succ k (by omega)
    split_ifs at this <;> omega

/-- Strict monotonicity of `toOrdinal` with respect to Python's date order. -/
theorem toOrdinal_lt_of_dateLt {a b : Date} (ha : a.Valid) (hb : b.Valid)
    (h : dateLt a b) : toOrdinal a < toOrdinal b := by
  obtain ⟨ay, am, ad⟩ := a
  obtain ⟨by', bm, bd⟩ := b
  obtain ⟨ha1, ha2, ha3, ha4, ha5, ha6⟩ := ha
  obtain ⟨hb1, hb2, hb3, hb4, hb5, hb6⟩ := hb
  simp only at ha1 ha2 ha3 ha4 ha5 ha6 hb1 hb2 hb3 hb4 hb5 hb6
  unfold dateLt at h
  simp only at h
  unfold toOrdinal
  simp only
  rcases h with hy | ⟨hy, hmd⟩
  · have h1 : dayOfYear (isLeap ay) am ad ≤
        (if isLeap ay then 366 else 365) := dayOfYear_le _ ha4 ha6
    have h2 : daysBeforeYear ay + (if isLeap ay then 366 else 365) =
        daysBeforeYear (ay + 1) := (daysBeforeYear_succ ay ha1).symm
    have h3 : daysBeforeYear (ay + 1) ≤ daysBeforeYear by' :=
      daysBeforeYear_mono (by omega) (by omega)
    have h4 : 1 ≤ dayOfYear (isLeap by') bm bd := dayOfYear_pos _ hb5
    split_ifs at h1 h2 <;> omega
  · subst hy
    have h5 : dayOfYear (isLeap ay) am ad < dayOfYear (isLeap ay) bm bd := by
      apply dayOfYear_lt _ ha6 hb5
      simpa [pairLt] using hmd
    omega

theorem dateLt_or_of_ne {a b : Date} (hne : a ≠ b) : dateLt a b ∨ dateLt b a := by
  cases a with
  | mk ay am ad =>
    cases b with
    | mk by' bm bd =>
      simp only [ne_eq, Date.mk.injEq, not_and] at hne
      unfold dateLt
      simp only
      omega

/-- `toOrdinal` is injective on valid dates. -/
theorem toOrdinal_injective {a b : Date} (ha : a.Valid) (hb : b.Valid)
    (h : toOrdinal a = toOrdinal b) : a = b := by
  by_contra hne
  rcases dateLt_or_of_ne hne with hlt | hlt
  · exact absurd h (Nat.ne_of_lt (toOrdinal_lt_of_dateLt ha hb hlt))
  · exact absurd h.symm (Nat.ne_of_lt (toOrdinal_lt_of_dateLt hb ha hlt))

theorem toOrdinal_succDate {dt : Date} (h : dt.Valid) :
    toOrdinal (succDate dt) = toOrdinal dt + 1 := by
  obtain ⟨y, m, d⟩ := dt
  obtain ⟨h1, h2, h3, h4, h5, h6⟩ := h
  simp only at h1 h2 h3 h4 h5 h6
  unfold succDate
  simp only
  split_ifs with hd hm
  · unfold toOrdinal dayOfYear
    simp only
    omega
  · unfold toOrdinal dayOfYear
    simp only
    have hstep : monthsBefore (isLeap y) (m + 1) =
        monthsBefore (isLeap y) m + daysInMonth (isLeap y) m := rfl
    omega
  · have hm12 : m = 12 := by omega
    have hday : d = 31 := by
      rw [hm12] at h6 hd
      simp only [daysInMonth] at h6 hd
      omega
    unfold toOrdinal dayOfYear
    simp only [hm12, hday]
    have hstep := daysBeforeYear_succ y h1
    have h13 : monthsBefore (isLeap y) 12 + 31 = if isLeap y then 366 else 365 := by
      have h0 := monthsBefore_thirteen (isLeap y)
      have hr : monthsBefore (isLeap y) 13 =
          monthsBefore (isLeap y) 12 + daysInMonth (isLeap y) 12 := rfl
      simp only [daysInMonth] at hr
      omega
    have hm1 : monthsBefore (isLeap (y + 1)) 1 = 0 := by
      cases hL : isLeap (y + 1) <;> decide
    split_ifs at hstep h13 <;> omega

theorem succDate_valid {dt : Date} (h : dt.Valid)
    (htop : dt.year + 1 ≤ 9999 ∨ ¬(dt.month = 12 ∧ dt.day = 31)) :
    (succDate dt).Valid := by
  obtain ⟨y, m, d⟩ := dt
  obtain ⟨h1, h2, h3, h4, h5, h6⟩ := h
  simp only at h1 h2 h3 h4 h5 h6 htop
  unfold succDate
  simp only
  split_ifs with hd hm
  · unfold Date.Valid
    simp only
    omega
  · unfold Date.Valid
    simp only
    have hp : 1 ≤ daysInMonth (isLeap y) (m + 1) :=
      daysInMonth_pos _ (by omega) (by omega)
    omega
  · have hm12 : m = 12 := by omega
    have hday : d = 31 := by
      rw [hm12] at h6 hd
      simp only [daysInMonth] at h6 hd
      omega
    have hy : y + 1 ≤ 9999 := by
      rcases htop with hy | hne
      · exact hy
      · exact absurd ⟨hm12, hday⟩ hne
    unfold Date.Valid
    simp only
    have hp : 1 ≤ daysInMonth (isLeap (y + 1)) 1 := daysInMonth_pos _ (by omega) (by omega)
    omega

theorem mkDate_eq_some {y m d : Nat} {dt : Date} :
    mkDate y m d = some dt ↔ dt = ⟨y, m, d⟩ ∧ Date.Valid ⟨y, m, d⟩ := by
  unfold mkDate
  split_ifs with h
  · simp only [Option.some.injEq]
    constructor
    · intro he
      exact ⟨he.symm, h⟩
    · intro ⟨he, _⟩
      exact he.symm
  · simp only [reduceCtorEq, false_iff, not_and]
    intro _ hv
    exact h hv

/-! ## Case analysis of `days_until_birthday` -/

/-- Full case analysis of `days_until_birthday` on valid dates: whenever it is
defined its value lies in `[0, 365]`, and it is `0` exactly when `today`'s
(month, day) equals the birthday's (month, day). -/
theorem days_until_birthday_cases {b t : Date} (hb : b.Valid) (ht : t.Valid) {r : Int}
    (h : days_until_birthday b t = some r) :
    0 ≤ r ∧ r ≤ 365 ∧ (r = 0 ↔ (t.month = b.month ∧ t.day = b.day)) := by
  unfold days_until_birthday at h
  cases hc : mkDate t.year b.month b.day with
  | none => rw [hc] at h; simp at h
  | some nb =>
    rw [hc] at h
    simp only [Option.some_bind] at h
    obtain ⟨rfl, hcv⟩ := mkDate_eq_some.mp hc
    obtain ⟨ht1, ht2, ht3, ht4, ht5, ht6⟩ := ht
    have hcv' := hcv
    obtain ⟨hv1, hv2, hv3, hv4, hv5, hv6⟩ := hcv'
    simp only at hv3 hv4 hv5 hv6
    by_cases hlt : dateLt ⟨t.year, b.month, b.day⟩ t
    · rw [if_pos hlt] at h
      cases hc2 : mkDate (t.year + 1) b.month b.day with
      | none => rw [hc2] at h; simp at h
      | some nb2 =>
        rw [hc2] at h
        simp only [Option.some_bind] at h
        obtain ⟨rfl, hc2v⟩ := mkDate_eq_some.mp hc2
        have hne : (⟨t.year + 1, b.month, b.day⟩ : Date) ≠ t := by
          intro he
          have := congrArg Date.year he
          simp only at this
          omega
        rw [if_neg hne] at h
        have hr : r = (toOrdinal ⟨t.year + 1, b.month, b.day⟩ : Int) - (toOrdinal t : Int) :=
          (Option.some.inj h).symm
        obtain ⟨hw1, hw2, hw3, hw4, hw5, hw6⟩ := hc2v
        simp only at hw5 hw6
        -- same-year lexicographic comparison extracted from `hlt`
        have hmd : pairLt (b.month, b.day) (t.month, t.day) := by
          unfold dateLt at hlt
          simp only at hlt
          unfold pairLt
          simp only
          omega
        have hF1 : daysBeforeYear (t.year + 1) =
            daysBeforeYear t.year + (if isLeap t.year then 366 else 365) :=
          daysBeforeYear_succ t.year ht1
        have hF2 : dayOfYear (isLeap t.year) b.month b.day <
            dayOfYear (isLeap t.year) t.month t.day :=
          dayOfYear_lt _ hv6 ht5 hmd
        have hF3 : 1 ≤ dayOfYear (isLeap (t.year + 1)) b.month b.day :=
          dayOfYear_pos _ hw5
        have hF4 : dayOfYear (isLeap t.year) t.month t.day ≤
            (if isLeap t.year then 366 else 365) := dayOfYear_le _ ht4 ht6
        have hmb := monthsBefore_leap_bounds b.month (by omega)
        have hord1 : toOrdinal (⟨t.year + 1, b.month, b.day⟩ : Date) =
            daysBeforeYear (t.year + 1) + dayOfYear (isLeap (t.year + 1)) b.month b.day := rfl
        have hordt : toOrdinal t =
            daysBeforeYear t.year + dayOfYear (isLeap t.year) t.month t.day := rfl
        have hdoy1 : dayOfYear (isLeap (t.year + 1)) b.month b.day =
            monthsBefore (isLeap (t.year + 1)) b.month + b.day := rfl
        have hdoy0 : dayOfYear (isLeap t.year) b.month b.day =
            monthsBefore (isLeap t.year) b.month + b.day := rfl
        have hmd' : b.month < t.month ∨ (b.month = t.month ∧ b.day < t.day) := by
          simpa [pairLt] using hmd
        have htri : (isLeap t.year = false ∧ isLeap (t.year + 1) = false)
            ∨ (isLeap t.year = false ∧ isLeap (t.year + 1) = true)
            ∨ (isLeap t.year = true ∧ isLeap (t.year + 1) = false) := by
          cases h1 : isLeap t.year with
          | false =>
            cases h2 : isLeap (t.year + 1) with
            | false => exact Or.inl ⟨rfl, rfl⟩
            | true => exact Or.inr (Or.inl ⟨rfl, rfl⟩)
          | true => exact Or.inr (Or.inr ⟨rfl, isLeap_succ_of_isLeap h1⟩)
        rcases htri with ⟨h1, h2⟩ | ⟨h1, h2⟩ | ⟨h1, h2⟩ <;>
          simp only [h1, h2, Bool.false_eq_true, if_false, if_true,
            reduceIte] at hF1 hF2 hF3 hF4 hdoy1 hdoy0 hord1 hordt <;>
          omega
    · rw [if_neg hlt] at h
      by_cases heq : (⟨t.year, b.month, b.day⟩ : Date) = t
      · rw [if_pos heq] at h
        have hr : r = 0 := (Option.some.inj h).symm
        have he1 : t.month = b.month := by
          have := congrArg Date.month heq
          simp only at this
          omega
        have he2 : t.day = b.day := by
          have := congrArg Date.day heq
          simp only at this
          omega
        exact ⟨by omega, by omega, by simp [hr, he1, he2]⟩
      · rw [if_neg heq] at h
        have hr : r = (toOrdinal ⟨t.year, b.month, b.day⟩ : Int) - (toOrdinal t : Int) :=
          (Option.some.inj h).symm
        have hlt' : dateLt t ⟨t.year, b.month, b.day⟩ := by
          rcases dateLt_or_of_ne heq with hx | hx
          · exact absurd hx hlt
          · exact hx
        have hordlt : toOrdinal t < toOrdinal ⟨t.year, b.month, b.day⟩ :=
          toOrdinal_lt_of_dateLt ⟨ht1, ht2, ht3, ht4, ht5, ht6⟩ hcv hlt'
        have hmd : pairLt (t.month, t.day) (b.month, b.day) := by
          unfold dateLt at hlt'
          simp only at hlt'
          unfold pairLt
          simp only
          omega
        have hordc : toOrdinal (⟨t.year, b.month, b.day⟩ : Date) =
            daysBeforeYear t.year + dayOfYear (isLeap t.year) b.month b.day := rfl
        have hordt : toOrdinal t =
            daysBeforeYear t.year + dayOfYear (isLeap t.year) t.month t.day := rfl
        have hF4 : dayOfYear (isLeap t.year) b.month b.day ≤
            (if isLeap t.year then 366 else 365) := dayOfYear_le _ hv4 hv6
        have hF5 : 1 ≤ dayOfYear (isLeap t.year) t.month t.day := dayOfYear_pos _ ht5
        refine ⟨by omega, ?_, ?_⟩
        · split_ifs at hF4 <;> omega
        · constructor
          · intro h0; omega
          · intro ⟨he1, he2⟩
            unfold pairLt at hmd
            simp only at hmd
            omega

/-! ## Claims about the date engine -/

/-- C1: for a valid birth date `b` and reference date `t ≥ b` such that
`(t.year, b.month, b.day)` is a valid calendar date, `days_until_birthday b t`
equals the day count from `t` to that candidate, the candidate being replaced
by `(t.year + 1, b.month, b.day)` when it is strictly before `t`, and equals
`0` when the candidate equals `t`. -/
theorem days_until_birthday_contract (b t : Date) (hb : b.Valid) (ht : t.Valid)
    (hbt : dateLe b t) (hc : Date.Valid ⟨t.year, b.month, b.day⟩) :
    (dateLt ⟨t.year, b.month, b.day⟩ t →
        days_until_birthday b t = (mkDate (t.year + 1) b.month b.day).map
          (fun nb2 => (toOrdinal nb2 : Int) - (toOrdinal t : Int)))
    ∧ (¬dateLt ⟨t.year, b.month, b.day⟩ t →
        days_until_birthday b t
          = some ((toOrdinal ⟨t.year, b.month, b.day⟩ : Int) - (toOrdinal t : Int)))
    ∧ (Date.mk t.year b.month b.day = t → days_until_birthday b t = some 0) := by
  have hcs : mkDate t.year b.month b.day = some ⟨t.year, b.month, b.day⟩ := by
    unfold mkDate
    rw [if_pos hc]
  unfold days_until_birthday
  rw [hcs]
  simp only [Option.some_bind]
  refine ⟨?_, ?_, ?_⟩
  · intro hlt
    rw [if_pos hlt]
    cases hc2 : mkDate (t.year + 1) b.month b.day with
    | none => simp
    | some nb2 =>
      obtain ⟨rfl, _⟩ := mkDate_eq_some.mp hc2
      have hne : (⟨t.year + 1, b.month, b.day⟩ : Date) ≠ t := by
        intro he
        have := congrArg Date.year he
        simp only at this
        omega
      simp only [Option.some_bind, Option.map_some']
      rw [if_neg hne]
  · intro hnlt
    rw [if_neg hnlt]
    by_cases heq : (⟨t.year, b.month, b.day⟩ : Date) = t
    · rw [if_pos heq, heq]
      simp
    · rw [if_neg heq]
  · intro heq
    have hirr : ¬dateLt ⟨t.year, b.month, b.day⟩ t := by
      rw [heq]
      unfold dateLt
      omega
    rw [if_neg hirr, if_pos heq]

/-- C1 witness: birth date 1990-03-15, reference date 2024-03-14. -/
theorem days_until_birthday_contract_witness :
    days_until_birthday ⟨1990, 3, 15⟩ ⟨2024, 3, 14⟩
      = some ((toOrdinal ⟨2024, 3, 15⟩ : Int) - (toOrdinal ⟨2024, 3, 14⟩ : Int)) :=
  (days_until_birthday_contract ⟨1990, 3, 15⟩ ⟨2024, 3, 14⟩ (by decide) (by decide)
    (by decide) (by decide)).2.1 (by decide)

/-- C2: for `b ≤ t`, `calculate_age b t` is `t.year - b.year`, minus one exactly
when `(t.month, t.day)` is lexicographically less than `(b.month, b.day)`, and
it is never negative. -/
theorem calculate_age_contract (b t : Date) (hbt : dateLe b t) :
    calculate_age b t = ((t.year : Int) - (b.year : Int)
        - (if pairLt (t.month, t.day) (b.month, b.day) then 1 else 0))
    ∧ 0 ≤ calculate_age b t := by
  obtain ⟨by', bm, bd⟩ := b
  obtain ⟨ty, tm, td⟩ := t
  unfold dateLe dateLt at hbt
  simp only [Date.mk.injEq] at hbt
  have hchar : pairLt (tm, td) (bm, bd) ↔ tm < bm ∨ (tm = bm ∧ td < bd) := by
    simp [pairLt]
  unfold calculate_age
  simp only
  split_ifs with hp
  · rw [hchar] at hp
    exact ⟨by omega, by omega⟩
  · rw [hchar] at hp
    exact ⟨by omega, by omega⟩

/-- C2 witness: birth date 1990-03-15, reference date 2024-03-14. -/
theorem calculate_age_contract_witness :
    calculate_age ⟨1990, 3, 15⟩ ⟨2024, 3, 14⟩ = ((2024 : Int) - (1990 : Int)
        - (if pairLt (3, 14) (3, 15) then 1 else 0))
    ∧ 0 ≤ calculate_age ⟨1990, 3, 15⟩ ⟨2024, 3, 14⟩ :=
  calculate_age_contract ⟨1990, 3, 15⟩ ⟨2024, 3, 14⟩ (by decide)

/-- C5: whenever `days_until_birthday` is defined its value lies in `[0, 366]`,
and for a birth date other than February 29 it lies in `[0, 365]`. -/
theorem days_until_birthday_range (b t : Date) (hb : b.Valid) (ht : t.Valid) (r : Int)
    (h : days_until_birthday b t = some r) :
    (0 ≤ r ∧ r ≤ 366) ∧ (¬(b.month = 2 ∧ b.day = 29) → 0 ≤ r ∧ r ≤ 365) := by
  obtain ⟨h1, h2, _⟩ := days_until_birthday_cases hb ht h
  exact ⟨⟨h1, by omega⟩, fun _ => ⟨h1, h2⟩⟩

/-- C5 witness: birth date 1990-03-15, reference date 2024-03-14, value 1. -/
theorem days_until_birthday_range_witness :
    ((0 : Int) ≤ 1 ∧ (1 : Int) ≤ 366) ∧
      (¬((3 : Nat) = 2 ∧ (15 : Nat) = 29) → (0 : Int) ≤ 1 ∧ (1 : Int) ≤ 365) :=
  days_until_birthday_range ⟨1990, 3, 15⟩ ⟨2024, 3, 14⟩ (by decide) (by decide) 1 (by decide)

/-- C6: whenever `days_until_birthday` is defined, its value is `0` iff
`t`'s (month, day) equals the birth date's (month, day). -/
theorem days_until_birthday_zero_iff (b t : Date) (hb : b.Valid) (ht : t.Valid) (r : Int)
    (h : days_until_birthday b t = some r) :
    r = 0 ↔ (t.month = b.month ∧ t.day = b.day) :=
  (days_until_birthday_cases hb ht h).2.2

/-- C6 witness: birth date 1990-03-15, reference date 2024-03-15, value 0. -/
theorem days_until_birthday_zero_iff_witness :
    (0 : Int) = 0 ↔ ((3 : Nat) = 3 ∧ (15 : Nat) = 15) :=
  days_until_birthday_zero_iff ⟨1990, 3, 15⟩ ⟨2024, 3, 15⟩ (by decide) (by decide) 0 (by decide)

/-- C8: concrete scenarios A and B — birth date 1990-03-15 gives age 33 and
1 day to go on 2024-03-14, and age 34 with 0 days to go on 2024-03-15. -/
theorem scenario_age_and_days :
    calculate_age ⟨1990, 3, 15⟩ ⟨2024, 3, 14⟩ = 33
    ∧ days_until_birthday ⟨1990, 3, 15⟩ ⟨2024, 3, 14⟩ = some 1
    ∧ calculate_age ⟨1990, 3, 15⟩ ⟨2024, 3, 15⟩ = 34
    ∧ days_until_birthday ⟨1990, 3, 15⟩ ⟨2024, 3, 15⟩ = some 0 := by
  refine ⟨by decide, by decide, by decide, by decide⟩

/-- C10: when `days_until_birthday b t = 1`, the age announced by the reminder
text (`calculate_age b t + 1`, from `person['age'] + 1` in
`send_birthday_reminders`) is exactly the age the person turns on the
birthday, i.e. `calculate_age b (succDate t)`, also across year boundaries. -/
theorem reminder_announced_age (b t : Date) (hb : b.Valid) (ht : t.Valid)
    (hbt : dateLe b t) (h : days_until_birthday b t = some 1) :
    calculate_age b t + 1 = calculate_age b (succDate t) := by
  unfold days_until_birthday at h
  cases hc : mkDate t.year b.month b.day with
  | none => rw [hc] at h; simp at h
  | some nb =>
    rw [hc] at h
    simp only [Option.some_bind] at h
    obtain ⟨rfl, hcv⟩ := mkDate_eq_some.mp hc
    obtain ⟨ht1, ht2, ht3, ht4, ht5, ht6⟩ := ht
    by_cases hlt : dateLt ⟨t.year, b.month, b.day⟩ t
    · rw [if_pos hlt] at h
      cases hc2 : mkDate (t.year + 1) b.month b.day with
      | none => rw [hc2] at h; simp at h
      | some nb2 =>
        rw [hc2] at h
        simp only [Option.some_bind] at h
        obtain ⟨rfl, hc2v⟩ := mkDate_eq_some.mp hc2
        have hne : (⟨t.year + 1, b.month, b.day⟩ : Date) ≠ t := by
          intro he
          have := congrArg Date.year he
          simp only at this
          omega
        rw [if_neg hne] at h
        have hr := Option.some.inj h
        have hy9999 : t.year + 1 ≤ 9999 := by
          obtain ⟨hw1, hw2, _, _, _, _⟩ := hc2v
          simpa using hw2
        have hsv : (succDate t).Valid :=
          succDate_valid ⟨ht1, ht2, ht3, ht4, ht5, ht6⟩ (Or.inl hy9999)
        have hts : toOrdinal (succDate t) = toOrdinal t + 1 :=
          toOrdinal_succDate ⟨ht1, ht2, ht3, ht4, ht5, ht6⟩
        have heq : (⟨t.year + 1, b.month, b.day⟩ : Date) = succDate t :=
          toOrdinal_injective hc2v hsv (by omega)
        rw [← heq]
        have hmd0 : b.month < t.month ∨ (b.month = t.month ∧ b.day < t.day) := by
          have h' := hlt
          unfold dateLt at h'
          simp only at h'
          omega
        have hmd : ¬pairLt (t.month, t.day) (b.month, b.day) := by
          unfold pairLt
          simp only
          omega
        have hpr : ¬pairLt (b.month, b.day) (b.month, b.day) := by
          unfold pairLt
          simp only
          omega
        unfold calculate_age
        simp only
        rw [if_neg hmd, if_neg hpr]
        push_cast
        ring
    · rw [if_neg hlt] at h
      by_cases heq0 : (⟨t.year, b.month, b.day⟩ : Date) = t
      · rw [if_pos heq0] at h
        exact absurd (Option.some.inj h) (by decide)
      · rw [if_neg heq0] at h
        have hr := Option.some.inj h
        have hlt' : dateLt t ⟨t.year, b.month, b.day⟩ := by
          rcases dateLt_or_of_ne heq0 with hx | hx
          · exact absurd hx hlt
          · exact hx
        have hmd0 : t.month < b.month ∨ (t.month = b.month ∧ t.day < b.day) := by
          have h' := hlt'
          unfold dateLt at h'
          simp only at h'
          omega
        have hcv' := hcv
        obtain ⟨hv1, hv2, hv3, hv4, hv5, hv6⟩ := hcv'
        simp only at hv3 hv4 hv5 hv6
        have hd31 : daysInMonth (isLeap t.year) b.month ≤ 31 :=
          daysInMonth_le_31 _ hv4
        have hnot31 : ¬(t.month = 12 ∧ t.day = 31) := by
          rintro ⟨hm12, hd31'⟩
          omega
        have hsv : (succDate t).Valid :=
          succDate_valid ⟨ht1, ht2, ht3, ht4, ht5, ht6⟩ (Or.inr hnot31)
        have hts : toOrdinal (succDate t) = toOrdinal t + 1 :=
          toOrdinal_succDate ⟨ht1, ht2, ht3, ht4, ht5, ht6⟩
        have heq : (⟨t.year, b.month, b.day⟩ : Date) = succDate t :=
          toOrdinal_injective hcv hsv (by omega)
        rw [← heq]
        have hmd : pairLt (t.month, t.day) (b.month, b.day) := by
          unfold pairLt
          simp only
          omega
        have hpr : ¬pairLt (b.month, b.day) (b.month, b.day) := by
          unfold pairLt
          simp only
          omega
        unfold calculate_age
        simp only
        rw [if_pos hmd, if_neg hpr]
        ring

/-- C10 witness: birth date 1990-03-15, reference date 2024-03-14. -/
theorem reminder_announced_age_witness :
    calculate_age ⟨1990, 3, 15⟩ ⟨2024, 3, 14⟩ + 1
      = calculate_age ⟨1990, 3, 15⟩ (succDate ⟨2024, 3, 14⟩) :=
  reminder_announced_age ⟨1990, 3, 15⟩ ⟨2024, 3, 14⟩ (by decide) (by decide)
    (by decide) (by decide)

/-! ## Storage layer: `get_all_people` from `database.py` -/

/-- A row of the `birthdays` table. -/
structure Row where
  id : Int
  name : String
  birthday_date : Date
  user_id : Int
deriving DecidableEq, Repr

/-- The dictionary built for each row by `get_all_people`: row fields plus the
derived `age` and `days_until`, recomputed relative to `today`. -/
structure PersonView where
  id : Int
  name : String
  birthday_date : Date
  user_id : Int
  age : Int
  days_until : Int
deriving DecidableEq, Repr

/-- Body of the row loop of `get_all_people`: computes the derived fields;
`none` models the `ValueError` escaping from `days_until_birthday`. -/
def rowToView (today : Date) (r : Row) : Option PersonView :=
  (days_until_birthday r.birthday_date today).map fun du =>
    { id := r.id, name := r.name, birthday_date := r.birthday_date,
      user_id := r.user_id, age := calculate_age r.birthday_date today,
      days_until := du }

/-- `BirthdayDatabase.get_all_people` from `database.py`: `if user_id:` is
Python truthiness (both `None` and `0` select the unfiltered query), the SQL
is `ORDER BY name`, and each row gets derived fields computed against today. -/
def get_all_people (uid? : Option Int) (today : Date) (db : List Row) :
    Option (List PersonView) :=
  let rows :=
    match uid? with
    | some uid => if uid ≠ 0 then db.filter (fun r => r.user_id == uid) else db
    | none => db
  (List.insertionSort (fun a b : Row => a.name ≤ b.name) rows).mapM (rowToView today)

instance : IsTotal Row (fun a b : Row => a.name ≤ b.name) :=
  ⟨fun a b => le_total a.name b.name⟩

instance : IsTrans Row (fun a b : Row => a.name ≤ b.name) :=
  ⟨fun _ _ _ hab hbc => le_trans hab hbc⟩

/-- The record fields of a result row (everything except the derived fields). -/
def rowKey (r : Row) : Int × String × Date × Int :=
  (r.id, r.name, r.birthday_date, r.user_id)

/-- The record fields of a returned person dictionary. -/
def viewKey (v : PersonView) : Int × String × Date × Int :=
  (v.id, v.name, v.birthday_date, v.user_id)

theorem mapM_option_forall₂ {α β : Type} (g : α → Option β) :
    ∀ (l : List α) (vs : List β), l.mapM g = some vs →
      List.Forall₂ (fun a b => g a = some b) l vs := by
  intro l
  induction l with
  | nil =>
    intro vs h
    simp only [List.mapM_nil] at h
    cases h
    exact List.Forall₂.nil
  | cons a l ih =>
    intro vs h
    rw [List.mapM_cons] at h
    cases hga : g a with
    | none => rw [hga] at h; simp at h
    | some b =>
      rw [hga] at h
      cases hl : l.mapM g with
      | none => rw [hl] at h; simp at h
      | some bs =>
        rw [hl] at h
        simp only [Option.pure_def, Option.bind_eq_bind, Option.some_bind,
          Option.some.injEq] at h
        subst h
        exact List.Forall₂.cons hga (ih bs hl)

theorem rowToView_key {today : Date} {r : Row} {v : PersonView}
    (h : rowToView today r = some v) : viewKey v = rowKey r := by
  unfold rowToView at h
  cases hd : days_until_birthday r.birthday_date today with
  | none => rw [hd] at h; simp at h
  | some du =>
    rw [hd] at h
    simp only [Option.map_some'] at h
    cases h
    rfl

theorem forall₂_viewKey {today : Date} :
    ∀ {rows : List Row} {vs : List PersonView},
      List.Forall₂ (fun r v => rowToView today r = some v) rows vs →
      vs.map viewKey = rows.map rowKey := by
  intro rows vs h
  induction h with
  | nil => rfl
  | cons hrv _ ih =>
    simp only [List.map_cons, ih, List.cons.injEq, and_true]
    exact rowToView_key hrv

/-- Core of `get_all_people`: record fields of the result are a permutation of
those of the selected rows, and the result is sorted by name. -/
theorem get_people_core {today : Date} {rows : List Row} {vs : List PersonView}
    (h : (List.insertionSort (fun a b : Row => a.name ≤ b.name) rows).mapM
        (rowToView today) = some vs) :
    (vs.map viewKey).Perm (rows.map rowKey)
    ∧ vs.Pairwise (fun a b => a.name ≤ b.name) := by
  have hf := mapM_option_forall₂ (rowToView today) _ _ h
  have hmap := forall₂_viewKey hf
  have hperm : (List.insertionSort (fun a b : Row => a.name ≤ b.name) rows).Perm rows :=
    List.perm_insertionSort _ _
  constructor
  · rw [hmap]
    exact hperm.map rowKey
  · have hsorted : (List.insertionSort (fun a b : Row => a.name ≤ b.name) rows).Pairwise
        (fun a b : Row => a.name ≤ b.name) := List.sorted_insertionSort _ _
    have hkeys : ((List.insertionSort (fun a b : Row => a.name ≤ b.name) rows).map
        rowKey).Pairwise (fun k k' => k.2.1 ≤ k'.2.1) := by
      rw [List.pairwise_map]
      exact hsorted
    rw [← hmap] at hkeys
    rw [List.pairwise_map] at hkeys
    exact hkeys

/-- C4 (amended): for every nonzero owner identifier `o`, `get_all_people o`
returns exactly the records whose `user_id` is `o`, ordered by name; with the
argument omitted it returns all records system-wide, ordered by name.  (For
`o = 0`, Python truthiness makes the code fall back to the unfiltered query —
see the counterexample.) -/
theorem get_all_people_spec (uid : Int) (today : Date) (db : List Row)
    (vs vs' : List PersonView) (huid : uid ≠ 0) :
    (get_all_people (some uid) today db = some vs →
        (∀ v ∈ vs, v.user_id = uid)
        ∧ (vs.map viewKey).Perm ((db.filter (fun r => r.user_id == uid)).map rowKey)
        ∧ vs.Pairwise (fun a b => a.name ≤ b.name))
    ∧ (get_all_people none today db = some vs' →
        (vs'.map viewKey).Perm (db.map rowKey)
        ∧ vs'.Pairwise (fun a b => a.name ≤ b.name)) := by
  constructor
  · intro h
    unfold get_all_people at h
    simp only [if_pos huid] at h
    obtain ⟨hperm, hsort⟩ := get_people_core h
    refine ⟨?_, hperm, hsort⟩
    intro v hv
    have hk : viewKey v ∈ (db.filter (fun r => r.user_id == uid)).map rowKey :=
      hperm.subset (List.mem_map_of_mem viewKey hv)
    obtain ⟨r, hrmem, hrk⟩ := List.mem_map.mp hk
    have hru : r.user_id = uid := by
      have hm := List.mem_filter.mp hrmem
      simpa using hm.2
    have hvu : v.user_id = r.user_id := by
      have h4 := congrArg (fun k => k.2.2.2) hrk
      simpa [rowKey, viewKey] using h4.symm
    rw [hvu, hru]
  · intro h
    unfold get_all_people at h
    exact get_people_core h

/-- C4 witness: a single record owned by user 7, queried for owner 7 and
system-wide. -/
theorem get_all_people_spec_witness :
    ((∀ v ∈ ([⟨1, "a", ⟨1990, 3, 15⟩, 7, 33, 1⟩] : List PersonView), v.user_id = 7)
      ∧ (([⟨1, "a", ⟨1990, 3, 15⟩, 7, 33, 1⟩] : List PersonView).map viewKey).Perm
          ((([⟨1, "a", ⟨1990, 3, 15⟩, 7⟩] : List Row).filter
            (fun r => r.user_id == 7)).map rowKey)
      ∧ ([⟨1, "a", ⟨1990, 3, 15⟩, 7, 33, 1⟩] : List PersonView).Pairwise
          (fun a b => a.name ≤ b.name))
    ∧ ((([⟨1, "a", ⟨1990, 3, 15⟩, 7, 33, 1⟩] : List PersonView).map viewKey).Perm
          (([⟨1, "a", ⟨1990, 3, 15⟩, 7⟩] : List Row).map rowKey)
      ∧ ([⟨1, "a", ⟨1990, 3, 15⟩, 7, 33, 1⟩] : List PersonView).Pairwise
          (fun a b => a.name ≤ b.name)) := by
  have h := get_all_people_spec 7 ⟨2024, 3, 14⟩ [⟨1, "a", ⟨1990, 3, 15⟩, 7⟩]
    [⟨1, "a", ⟨1990, 3, 15⟩, 7, 33, 1⟩] [⟨1, "a", ⟨1990, 3, 15⟩, 7, 33, 1⟩] (by decide)
  exact ⟨h.1 (by decide), h.2 (by decide)⟩

/-- C4 counterexample: with owner identifier `0` (falsy in Python), the filter
is skipped and another owner's record is returned, so the claim fails for
`o = 0`. -/
theorem get_all_people_zero_cross_owner :
    get_all_people (some 0) ⟨2024, 3, 14⟩ [⟨1, "a", ⟨1990, 3, 15⟩, 7⟩]
      = some [⟨1, "a", ⟨1990, 3, 15⟩, 7, 33, 1⟩]
    ∧ ¬(∀ vs, get_all_people (some 0) ⟨2024, 3, 14⟩ [⟨1, "a", ⟨1990, 3, 15⟩, 7⟩]
          = some vs → ∀ v ∈ vs, v.user_id = 0) := by
  refine ⟨by decide, ?_⟩
  intro hall
  have h7 := hall [⟨1, "a", ⟨1990, 3, 15⟩, 7, 33, 1⟩] (by decide)
    ⟨1, "a", ⟨1990, 3, 15⟩, 7, 33, 1⟩ (by decide)
  exact absurd h7 (by decide)

/-! ## Reminder scheduler: one tick of `send_birthday_reminders` (`main.py`) -/

/-- `BirthdayDatabase.get_people_with_birthday_in_days`: all people system-wide
whose `days_until` equals `days`. -/
def get_people_with_birthday_in_days (days : Int) (today : Date) (db : List Row) :
    Option (List PersonView) :=
  (get_all_people none today db).map (List.filter (fun p => p.days_until == days))

/-- One step of the grouping loop: insert `p` into the group of
`p.user_id`, appending a new group at the end on first sight (Python dict
insertion order). -/
def addToGroup : List (Int × List PersonView) → PersonView → List (Int × List PersonView)
  | [], p => [(p.user_id, [p])]
  | (u, ps) :: rest, p =>
    if u = p.user_id then (u, ps ++ [p]) :: rest
    else (u, ps) :: addToGroup rest p

/-- The `user_reminders` dictionary of `send_birthday_reminders`: people with
`days_until == 1`, grouped by `user_id`. -/
def groupByUser (people : List PersonView) : List (Int × List PersonView) :=
  people.foldl addToGroup []

/-- The inner loop of `send_birthday_reminders` for one owner: every person in
the group is attempted; after a failed send the owner is discarded from
`active_users` (and the loop continues with the next person). -/
def dispatchPersons (deliver : Int → PersonView → Bool) (uid : Int) :
    List PersonView → Finset Int → List (Int × PersonView) × Finset Int
  | [], active => ([], active)
  | p :: ps, active =>
    let active' := if deliver uid p then active else active.erase uid
    let res := dispatchPersons deliver uid ps active'
    ((uid, p) :: res.1, res.2)

/-- The outer loop of `send_birthday_reminders`: for each owner group, the
group is dispatched only when the owner is (still) in `active_users`. -/
def dispatchGroups (deliver : Int → PersonView → Bool) :
    List (Int × List PersonView) → Finset Int → List (Int × PersonView) × Finset Int
  | [], active => ([], active)
  | (uid, ps) :: rest, active =>
    if uid ∈ active then
      let r1 := dispatchPersons deliver uid ps active
      let r2 := dispatchGroups deliver rest r1.2
      (r1.1 ++ r2.1, r2.2)
    else
      dispatchGroups deliver rest active

/-- One tick of `send_birthday_reminders`: fetch the people whose birthday is
in one day, group them by owner, and dispatch.  Returns the list of attempted
notifications `(user_id, person)` in order, and the final `active_users` set;
`none` models a tick abandoned by the `except` handler because the fetch
raised. -/
def send_birthday_reminders_tick (deliver : Int → PersonView → Bool) (today : Date)
    (db : List Row) (active : Finset Int) :
    Option (List (Int × PersonView) × Finset Int) :=
  (get_people_with_birthday_in_days 1 today db).map fun people =>
    dispatchGroups deliver (groupByUser people) active

theorem dispatchPersons_sends (deliver : Int → PersonView → Bool) (uid : Int) :
    ∀ (ps : List PersonView) (active : Finset Int),
      (dispatchPersons deliver uid ps active).1 = ps.map (fun p => (uid, p)) := by
  intro ps
  induction ps with
  | nil => intro active; rfl
  | cons p ps ih =>
    intro active
    simp only [dispatchPersons, List.map_cons, List.cons.injEq, true_and]
    exact ih _

theorem dispatchPersons_active (deliver : Int → PersonView → Bool) (uid : Int) :
    ∀ (ps : List PersonView) (active : Finset Int),
      (dispatchPersons deliver uid ps active).2
        = if ps.all (fun p => deliver uid p) then active else active.erase uid := by
  intro ps
  induction ps with
  | nil => intro active; simp [dispatchPersons]
  | cons p ps ih =>
    intro active
    simp only [dispatchPersons, List.all_cons]
    by_cases hdp : deliver uid p = true
    · rw [if_pos hdp, ih]
      simp [hdp]
    · have hdp' : deliver uid p = false := by
        revert hdp
        cases deliver uid p <;> simp
      rw [if_neg hdp, ih]
      simp only [hdp', Bool.false_and, Bool.false_eq_true, if_false]
      split_ifs
      · rfl
      · exact Finset.erase_idem

theorem addToGroup_keys (p : PersonView) :
    ∀ (acc : List (Int × List PersonView)),
      (addToGroup acc p).map Prod.fst
        = if p.user_id ∈ acc.map Prod.fst then acc.map Prod.fst
          else acc.map Prod.fst ++ [p.user_id] := by
  intro acc
  induction acc with
  | nil => simp [addToGroup]
  | cons g rest ih =>
    obtain ⟨u, ps⟩ := g
    by_cases hu : u = p.user_id
    · subst hu
      simp [addToGroup]
    · have hne' : p.user_id ≠ u := fun h => hu h.symm
      simp only [addToGroup, if_neg hu, List.map_cons, ih]
      by_cases hmem : p.user_id ∈ rest.map Prod.fst
      · simp [List.mem_cons, hmem, hne']
      · simp [List.mem_cons, hmem, hne']

theorem addToGroup_keys_mem (p : PersonView) (acc : List (Int × List PersonView)) (U : Int) :
    U ∈ (addToGroup acc p).map Prod.fst
      ↔ (U ∈ acc.map Prod.fst ∨ U = p.user_id) := by
  rw [addToGroup_keys]
  split_ifs with hmem
  · constructor
    · exact Or.inl
    · rintro (h | rfl)
      · exact h
      · exact hmem
  · simp [List.mem_append]

theorem addToGroup_mem {p : PersonView} {U : Int} {qs : List PersonView} :
    ∀ {acc : List (Int × List PersonView)}, (acc.map Prod.fst).Nodup →
      ((U, qs) ∈ addToGroup acc p ↔
        ((U ≠ p.user_id ∧ (U, qs) ∈ acc)
          ∨ (U = p.user_id ∧ p.user_id ∉ acc.map Prod.fst ∧ qs = [p])
          ∨ (U = p.user_id ∧ ∃ qs0, (U, qs0) ∈ acc ∧ qs = qs0 ++ [p]))) := by
  intro acc
  induction acc with
  | nil =>
    intro _
    constructor
    · intro hmem
      have heq : (U, qs) = (p.user_id, [p]) := by simpa [addToGroup] using hmem
      have h1 : U = p.user_id := congrArg Prod.fst heq
      have h2 : qs = [p] := congrArg Prod.snd heq
      exact Or.inr (Or.inl ⟨h1, by simp, h2⟩)
    · rintro (⟨_, hmem⟩ | ⟨rfl, _, rfl⟩ | ⟨rfl, qs0, hq0, rfl⟩)
      · cases hmem
      · simp [addToGroup]
      · cases hq0
  | cons g rest ih =>
    intro hnd
    obtain ⟨u, ps⟩ := g
    simp only [List.map_cons] at hnd
    have hnd2 := List.nodup_cons.mp hnd
    have hu_not : u ∉ rest.map Prod.fst := hnd2.1
    have hnd' : (rest.map Prod.fst).Nodup := hnd2.2
    by_cases hu : u = p.user_id
    · subst hu
      simp only [addToGroup, if_pos rfl]
      constructor
      · intro hmem
        rcases List.mem_cons.mp hmem with heq | hrest
        · have h1 : U = p.user_id := congrArg Prod.fst heq
          have h2 : qs = ps ++ [p] := congrArg Prod.snd heq
          subst h1
          subst h2
          exact Or.inr (Or.inr ⟨rfl, ps, List.mem_cons_self _ _, rfl⟩)
        · have hUne : U ≠ p.user_id := by
            intro h1
            subst h1
            exact hu_not (List.mem_map_of_mem Prod.fst hrest)
          exact Or.inl ⟨hUne, List.mem_cons_of_mem _ hrest⟩
      · rintro (⟨hne, hmem⟩ | ⟨rfl, hnot, rfl⟩ | ⟨rfl, qs0, hq0, rfl⟩)
        · rcases List.mem_cons.mp hmem with heq | hrest
          · exact absurd (congrArg Prod.fst heq) hne
          · exact List.mem_cons_of_mem _ hrest
        · have hhd : p.user_id ∈ ((p.user_id, ps) :: rest).map Prod.fst := by simp
          exact absurd hhd hnot
        · rcases List.mem_cons.mp hq0 with heq | hrest
          · have h2 : qs0 = ps := congrArg Prod.snd heq
            subst h2
            exact List.mem_cons_self _ _
          · exact absurd (List.mem_map_of_mem Prod.fst hrest) hu_not
    · simp only [addToGroup, if_neg hu]
      rw [List.mem_cons, ih hnd']
      constructor
      · rintro (heq | (⟨hne, hmem⟩ | ⟨rfl, hnotrest, rfl⟩ | ⟨rfl, qs0, hq0, rfl⟩))
        · have h1 : U = u := congrArg Prod.fst heq
          refine Or.inl ⟨by rw [h1]; exact hu, List.mem_cons.mpr (Or.inl heq)⟩
        · exact Or.inl ⟨hne, List.mem_cons_of_mem _ hmem⟩
        · refine Or.inr (Or.inl ⟨rfl, ?_, rfl⟩)
          simp only [List.map_cons, List.mem_cons]
          rintro (heq2 | hmem2)
          · exact hu heq2.symm
          · exact hnotrest hmem2
        · exact Or.inr (Or.inr ⟨rfl, qs0, List.mem_cons_of_mem _ hq0, rfl⟩)
      · rintro (⟨hne, hmem⟩ | ⟨rfl, hnot, rfl⟩ | ⟨rfl, qs0, hq0, rfl⟩)
        · rcases List.mem_cons.mp hmem with heq | hrest
          · exact Or.inl heq
          · exact Or.inr (Or.inl ⟨hne, hrest⟩)
        · refine Or.inr (Or.inr (Or.inl ⟨rfl, ?_, rfl⟩))
          intro hmem2
          exact hnot (by simp [hmem2])
        · rcases List.mem_cons.mp hq0 with heq | hrest
          · have h1 : p.user_id = u := congrArg Prod.fst heq
            exact absurd h1.symm hu
          · exact Or.inr (Or.inr (Or.inr ⟨rfl, qs0, hrest, rfl⟩))

theorem foldl_addToGroup_spec :
    ∀ (l : List PersonView) (acc : List (Int × List PersonView))
      (g : Int → List PersonView),
      (acc.map Prod.fst).Nodup →
      (∀ U qs, (U, qs) ∈ acc ↔ (U ∈ acc.map Prod.fst ∧ qs = g U)) →
      (∀ U, U ∉ acc.map Prod.fst → g U = []) →
      ((l.foldl addToGroup acc).map Prod.fst).Nodup
      ∧ (∀ U, U ∈ (l.foldl addToGroup acc).map Prod.fst ↔
            (U ∈ acc.map Prod.fst ∨ U ∈ l.map PersonView.user_id))
      ∧ (∀ U qs, (U, qs) ∈ l.foldl addToGroup acc ↔
            (U ∈ (l.foldl addToGroup acc).map Prod.fst
              ∧ qs = g U ++ l.filter (fun q => q.user_id == U))) := by
  intro l
  induction l with
  | nil =>
    intro acc g h1 h2 h3
    refine ⟨h1, ?_, ?_⟩
    · intro U
      simp
    · intro U qs
      simp only [List.foldl_nil, List.filter_nil, List.append_nil]
      exact h2 U qs
  | cons p l ih =>
    intro acc g h1 h2 h3
    rw [List.foldl_cons]
    have h1' : ((addToGroup acc p).map Prod.fst).Nodup := by
      rw [addToGroup_keys]
      split_ifs with hmem
      · exact h1
      · rw [List.nodup_append]
        refine ⟨h1, List.nodup_singleton _, ?_⟩
        intro x hx hx1
        rw [List.mem_singleton] at hx1
        subst hx1
        exact hmem hx
    have h2' : ∀ U qs, (U, qs) ∈ addToGroup acc p ↔
        (U ∈ (addToGroup acc p).map Prod.fst
          ∧ qs = (fun V => if V = p.user_id then g V ++ [p] else g V) U) := by
      intro U qs
      rw [addToGroup_mem h1, addToGroup_keys_mem]
      simp only
      constructor
      · rintro (⟨hne, hmem⟩ | ⟨rfl, hnot, rfl⟩ | ⟨rfl, qs0, hq0, rfl⟩)
        · have hk := (h2 U _).mp hmem
          exact ⟨Or.inl hk.1, by rw [if_neg hne]; exact hk.2⟩
        · refine ⟨Or.inr rfl, ?_⟩
          rw [if_pos rfl, h3 _ hnot]
          rfl
        · have hk := (h2 _ _).mp hq0
          exact ⟨Or.inl hk.1, by rw [if_pos rfl, hk.2]⟩
      · rintro ⟨hkey, rfl⟩
        by_cases hUp : U = p.user_id
        · subst hUp
          by_cases hmem : p.user_id ∈ acc.map Prod.fst
          · refine Or.inr (Or.inr ⟨rfl, g p.user_id, (h2 _ _).mpr ⟨hmem, rfl⟩, ?_⟩)
            rw [if_pos rfl]
          · refine Or.inr (Or.inl ⟨rfl, hmem, ?_⟩)
            rw [if_pos rfl, h3 _ hmem]
            rfl
        · have hmem : U ∈ acc.map Prod.fst := by
            rcases hkey with h | h
            · exact h
            · exact absurd h hUp
          exact Or.inl ⟨hUp, (h2 _ _).mpr ⟨hmem, by rw [if_neg hUp]⟩⟩
    have h3' : ∀ U, U ∉ (addToGroup acc p).map Prod.fst →
        (fun V => if V = p.user_id then g V ++ [p] else g V) U = [] := by
      intro U hU
      rw [addToGroup_keys_mem] at hU
      push_neg at hU
      simp only
      rw [if_neg hU.2]
      exact h3 U hU.1
    obtain ⟨c1, c2, c3⟩ := ih (addToGroup acc p)
      (fun V => if V = p.user_id then g V ++ [p] else g V) h1' h2' h3'
    refine ⟨c1, ?_, ?_⟩
    · intro U
      rw [c2 U, addToGroup_keys_mem]
      simp only [List.map_cons, List.mem_cons]
      tauto
    · intro U qs
      rw [c3 U qs]
      have hstep : (fun V => if V = p.user_id then g V ++ [p] else g V) U
            ++ l.filter (fun q => q.user_id == U)
          = g U ++ (p :: l).filter (fun q => q.user_id == U) := by
        simp only
        by_cases hUp : U = p.user_id
        · subst hUp
          rw [if_pos rfl, List.filter_cons, if_pos (by simp)]
          simp
        · have hbe : ¬(p.user_id == U) = true := by
            simp only [beq_iff_eq]
            exact fun h => hUp h.symm
          rw [if_neg hUp, List.filter_cons, if_neg hbe]
      rw [hstep]

theorem groupByUser_keys_nodup (l : List PersonView) :
    ((groupByUser l).map Prod.fst).Nodup :=
  (foldl_addToGroup_spec l [] (fun _ => []) (by simp) (by simp) (fun _ _ => rfl)).1

theorem groupByUser_keys_mem (l : List PersonView) (U : Int) :
    U ∈ (groupByUser l).map Prod.fst ↔ U ∈ l.map PersonView.user_id := by
  have h := foldl_addToGroup_spec l [] (fun _ => []) (by simp) (by simp) (fun _ _ => rfl)
  unfold groupByUser
  rw [h.2.1 U]
  simp

theorem groupByUser_mem (l : List PersonView) (U : Int) (qs : List PersonView) :
    (U, qs) ∈ groupByUser l ↔
      (U ∈ l.map PersonView.user_id ∧ qs = l.filter (fun q => q.user_id == U)) := by
  have h := foldl_addToGroup_spec l [] (fun _ => []) (by simp) (by simp) (fun _ _ => rfl)
  unfold groupByUser
  rw [h.2.2 U qs]
  have hk := h.2.1 U
  unfold groupByUser at hk
  rw [hk]
  simp

theorem dispatchGroups_cons (deliver : Int → PersonView → Bool) (u : Int)
    (ps : List PersonView) (rest : List (Int × List PersonView)) (active : Finset Int) :
    dispatchGroups deliver ((u, ps) :: rest) active
      = if u ∈ active then
          ((dispatchPersons deliver u ps active).1
              ++ (dispatchGroups deliver rest (dispatchPersons deliver u ps active).2).1,
            (dispatchGroups deliver rest (dispatchPersons deliver u ps active).2).2)
        else dispatchGroups deliver rest active := rfl

theorem dispatchPersons_final_subset (deliver : Int → PersonView → Bool) (uid : Int)
    (ps : List PersonView) (active : Finset Int) :
    (dispatchPersons deliver uid ps active).2 ⊆ active := by
  rw [dispatchPersons_active]
  split_ifs
  · exact Finset.Subset.refl _
  · exact Finset.erase_subset _ _

theorem dispatchGroups_final_subset (deliver : Int → PersonView → Bool) :
    ∀ (groups : List (Int × List PersonView)) (active : Finset Int),
      (dispatchGroups deliver groups active).2 ⊆ active := by
  intro groups
  induction groups with
  | nil => intro active; exact Finset.Subset.refl _
  | cons g rest ih =>
    intro active
    obtain ⟨u, ps⟩ := g
    rw [dispatchGroups_cons]
    by_cases hu : u ∈ active
    · rw [if_pos hu]
      simp only
      exact (ih _).trans (dispatchPersons_final_subset deliver u ps active)
    · rw [if_neg hu]
      exact ih _

theorem dispatchGroups_mem_final_of_not_key (deliver : Int → PersonView → Bool) :
    ∀ (groups : List (Int × List PersonView)) (active : Finset Int) (U : Int),
      U ∈ active → U ∉ groups.map Prod.fst →
      U ∈ (dispatchGroups deliver groups active).2 := by
  intro groups
  induction groups with
  | nil => intro active U hU _; exact hU
  | cons g rest ih =>
    intro active U hU hnk
    obtain ⟨u, ps⟩ := g
    simp only [List.map_cons, List.mem_cons] at hnk
    push_neg at hnk
    rw [dispatchGroups_cons]
    by_cases hu : u ∈ active
    · rw [if_pos hu]
      simp only
      apply ih
      · rw [dispatchPersons_active]
        split_ifs
        · exact hU
        · exact Finset.mem_erase.mpr ⟨hnk.1, hU⟩
      · exact hnk.2
    · rw [if_neg hu]
      exact ih _ _ hU hnk.2

theorem dispatchGroups_sends_mem (deliver : Int → PersonView → Bool) :
    ∀ (groups : List (Int × List PersonView)) (active : Finset Int),
      (groups.map Prod.fst).Nodup →
      ∀ (U : Int) (p : PersonView),
        ((U, p) ∈ (dispatchGroups deliver groups active).1 ↔
          ∃ qs, (U, qs) ∈ groups ∧ U ∈ active ∧ p ∈ qs) := by
  intro groups
  induction groups with
  | nil =>
    intro active _ U p
    simp [dispatchGroups]
  | cons g rest ih =>
    intro active hnd U p
    obtain ⟨u, ps⟩ := g
    simp only [List.map_cons] at hnd
    have hnd2 := List.nodup_cons.mp hnd
    rw [dispatchGroups_cons]
    by_cases hu : u ∈ active
    · rw [if_pos hu]
      simp only [List.mem_append]
      rw [dispatchPersons_sends]
      have hmap : ((U, p) ∈ ps.map fun q => (u, q)) ↔ (U = u ∧ p ∈ ps) := by
        simp only [List.mem_map, Prod.mk.injEq]
        constructor
        · rintro ⟨q, hq, hu2, hp⟩
          exact ⟨hu2.symm, hp ▸ hq⟩
        · rintro ⟨rfl, hp⟩
          exact ⟨p, hp, rfl, rfl⟩
      rw [hmap, ih _ hnd2.2]
      constructor
      · rintro (⟨rfl, hp⟩ | ⟨qs, hqs, hUr, hpq⟩)
        · exact ⟨ps, List.mem_cons_self _ _, hu, hp⟩
        · exact ⟨qs, List.mem_cons_of_mem _ hqs,
            dispatchPersons_final_subset deliver u ps active hUr, hpq⟩
      · rintro ⟨qs, hqs, hUa, hpq⟩
        rcases List.mem_cons.mp hqs with heq | hrest
        · left
          have h1 : U = u := congrArg Prod.fst heq
          have h2 : qs = ps := congrArg Prod.snd heq
          exact ⟨h1, h2 ▸ hpq⟩
        · right
          have hUne : U ≠ u := by
            intro h1
            subst h1
            exact hnd2.1 (List.mem_map_of_mem Prod.fst hrest)
          refine ⟨qs, hrest, ?_, hpq⟩
          rw [dispatchPersons_active]
          split_ifs
          · exact hUa
          · exact Finset.mem_erase.mpr ⟨hUne, hUa⟩
    · rw [if_neg hu]
      rw [ih _ hnd2.2]
      constructor
      · rintro ⟨qs, hqs, hUa, hpq⟩
        exact ⟨qs, List.mem_cons_of_mem _ hqs, hUa, hpq⟩
      · rintro ⟨qs, hqs, hUa, hpq⟩
        rcases List.mem_cons.mp hqs with heq | hrest
        · have h1 : U = u := congrArg Prod.fst heq
          subst h1
          exact absurd hUa hu
        · exact ⟨qs, hrest, hUa, hpq⟩

theorem count_map_pair (U : Int) (p : PersonView) :
    ∀ qs : List PersonView, (qs.map fun q => (U, q)).count (U, p) = qs.count p := by
  intro qs
  induction qs with
  | nil => rfl
  | cons q qs ih =>
    simp only [List.map_cons, List.count_cons, ih]
    by_cases hpq : p = q
    · subst hpq
      simp
    · have h1 : ¬((U, q) == (U, p)) = true := by
        simp only [beq_iff_eq, Prod.mk.injEq]
        exact fun h => hpq h.2.symm
      have h2 : ¬(q == p) = true := by
        simp only [beq_iff_eq]
        exact fun h => hpq h.symm
      rw [if_neg h1, if_neg h2]

theorem dispatchGroups_count (deliver : Int → PersonView → Bool) :
    ∀ (groups : List (Int × List PersonView)) (active : Finset Int),
      (groups.map Prod.fst).Nodup →
      ∀ (U : Int) (qs : List PersonView) (p : PersonView),
        (U, qs) ∈ groups → U ∈ active →
        (dispatchGroups deliver groups active).1.count (U, p) = qs.count p := by
  intro groups
  induction groups with
  | nil =>
    intro active _ U qs p h
    cases h
  | cons g rest ih =>
    intro active hnd U qs p hmem hUa
    obtain ⟨u, ps⟩ := g
    simp only [List.map_cons] at hnd
    have hnd2 := List.nodup_cons.mp hnd
    rw [dispatchGroups_cons]
    rcases List.mem_cons.mp hmem with heq | hrest
    · have h1 : U = u := congrArg Prod.fst heq
      have h2 : qs = ps := congrArg Prod.snd heq
      subst h1
      subst h2
      rw [if_pos hUa]
      simp only [List.count_append]
      rw [dispatchPersons_sends]
      have hc1 : (qs.map fun q => (U, q)).count (U, p) = qs.count p :=
        count_map_pair U p qs
      have hc2 : ((dispatchGroups deliver rest
          (dispatchPersons deliver U qs active).2).1.count (U, p)) = 0 := by
        rw [List.count_eq_zero]
        intro hin
        obtain ⟨qs', hq', _, _⟩ :=
          (dispatchGroups_sends_mem deliver rest _ hnd2.2 U p).mp hin
        exact hnd2.1 (List.mem_map_of_mem Prod.fst hq')
      rw [hc1, hc2]
      omega
    · have hUne : U ≠ u := by
        intro h1
        subst h1
        exact hnd2.1 (List.mem_map_of_mem Prod.fst hrest)
      by_cases hu : u ∈ active
      · rw [if_pos hu]
        simp only [List.count_append]
        rw [dispatchPersons_sends]
        have hc1 : (ps.map fun q => (u, q)).count (U, p) = 0 := by
          rw [List.count_eq_zero]
          intro hin
          obtain ⟨q, _, heq2⟩ := List.mem_map.mp hin
          exact hUne (congrArg Prod.fst heq2).symm
        have hUa' : U ∈ (dispatchPersons deliver u ps active).2 := by
          rw [dispatchPersons_active]
          split_ifs
          · exact hUa
          · exact Finset.mem_erase.mpr ⟨hUne, hUa⟩
        rw [hc1, ih _ hnd2.2 U qs p hrest hUa']
        omega
      · rw [if_neg hu]
        exact ih _ hnd2.2 U qs p hrest hUa

theorem dispatchGroups_final_of_all_ok (deliver : Int → PersonView → Bool) :
    ∀ (groups : List (Int × List PersonView)) (active : Finset Int),
      (groups.map Prod.fst).Nodup →
      ∀ (U : Int), U ∈ active →
        (∀ qs, (U, qs) ∈ groups → ∀ p ∈ qs, deliver U p = true) →
        U ∈ (dispatchGroups deliver groups active).2 := by
  intro groups
  induction groups with
  | nil =>
    intro active _ U hU _
    exact hU
  | cons g rest ih =>
    intro active hnd U hU hall
    obtain ⟨u, ps⟩ := g
    simp only [List.map_cons] at hnd
    have hnd2 := List.nodup_cons.mp hnd
    rw [dispatchGroups_cons]
    by_cases hu : u ∈ active
    · rw [if_pos hu]
      simp only
      apply ih _ hnd2.2 U
      · by_cases hUu : U = u
        · subst hUu
          have hok : ps.all (fun p => deliver U p) = true :=
            List.all_eq_true.mpr (fun p hp => hall ps (List.mem_cons_self _ _) p hp)
          rw [dispatchPersons_active, if_pos hok]
          exact hU
        · rw [dispatchPersons_active]
          split_ifs
          · exact hU
          · exact Finset.mem_erase.mpr ⟨hUu, hU⟩
      · intro qs hqs p hp
        exact hall qs (List.mem_cons_of_mem _ hqs) p hp
    · rw [if_neg hu]
      apply ih _ hnd2.2 U hU
      intro qs hqs p hp
      exact hall qs (List.mem_cons_of_mem _ hqs) p hp

theorem dispatchGroups_evicts (deliver : Int → PersonView → Bool) :
    ∀ (groups : List (Int × List PersonView)) (active : Finset Int),
      (groups.map Prod.fst).Nodup →
      ∀ (U : Int) (qs : List PersonView),
        (U, qs) ∈ groups → U ∈ active → (∃ p ∈ qs, deliver U p = false) →
        U ∉ (dispatchGroups deliver groups active).2 := by
  intro groups
  induction groups with
  | nil =>
    intro active _ U qs h
    cases h
  | cons g rest ih =>
    intro active hnd U qs hmem hUa hfail
    obtain ⟨u, ps⟩ := g
    simp only [List.map_cons] at hnd
    have hnd2 := List.nodup_cons.mp hnd
    rw [dispatchGroups_cons]
    rcases List.mem_cons.mp hmem with heq | hrest
    · have h1 : U = u := congrArg Prod.fst heq
      have h2 : qs = ps := congrArg Prod.snd heq
      subst h1
      subst h2
      rw [if_pos hUa]
      simp only
      intro hfin
      have hUr := dispatchGroups_final_subset deliver rest _ hfin
      have hallf : qs.all (fun p => deliver U p) = false := by
        obtain ⟨p0, hp0, hf0⟩ := hfail
        by_contra hcon
        have : qs.all (fun p => deliver U p) = true := by
          revert hcon
          cases qs.all (fun p => deliver U p) <;> simp
        have := List.all_eq_true.mp this p0 hp0
        rw [hf0] at this
        cases this
      rw [dispatchPersons_active] at hUr
      rw [hallf] at hUr
      simp only [Bool.false_eq_true, if_false] at hUr
      exact (Finset.mem_erase.mp hUr).1 rfl
    · have hUne : U ≠ u := by
        intro h1
        subst h1
        exact hnd2.1 (List.mem_map_of_mem Prod.fst hrest)
      by_cases hu : u ∈ active
      · rw [if_pos hu]
        simp only
        have hUa' : U ∈ (dispatchPersons deliver u ps active).2 := by
          rw [dispatchPersons_active]
          split_ifs
          · exact hUa
          · exact Finset.mem_erase.mpr ⟨hUne, hUa⟩
        exact ih _ hnd2.2 U qs hrest hUa' hfail
      · rw [if_neg hu]
        exact ih _ hnd2.2 U qs hrest hUa hfail

/-- C7: within one tick, a delivery is attempted for an owner's group iff the
owner is in the reachability set, with exactly one notification per qualifying
person (`days_until == 1`), and an owner whose deliveries all succeed stays in
the reachability set. -/
theorem tick_dispatch_spec (deliver : Int → PersonView → Bool) (today : Date)
    (db : List Row) (active : Finset Int) (U : Int) (p : PersonView)
    (el : List PersonView) (sends : List (Int × PersonView)) (final : Finset Int)
    (hel : get_people_with_birthday_in_days 1 today db = some el)
    (hrun : send_birthday_reminders_tick deliver today db active = some (sends, final)) :
    ((U, p) ∈ sends ↔ (U ∈ active ∧ p ∈ el ∧ p.user_id = U))
    ∧ (U ∈ active → p.user_id = U → sends.count (U, p) = el.count p)
    ∧ (p ∈ el → p.days_until = 1)
    ∧ (U ∈ active → (∀ q ∈ el, q.user_id = U → deliver U q = true) → U ∈ final) := by
  unfold send_birthday_reminders_tick at hrun
  rw [hel] at hrun
  simp only [Option.map_some'] at hrun
  have hp2 := Option.some.inj hrun
  have hsends : (dispatchGroups deliver (groupByUser el) active).1 = sends :=
    congrArg Prod.fst hp2
  have hfinal : (dispatchGroups deliver (groupByUser el) active).2 = final :=
    congrArg Prod.snd hp2
  have hnd := groupByUser_keys_nodup el
  have hdays : ∀ q ∈ el, q.days_until = 1 := by
    intro q hq
    unfold get_people_with_birthday_in_days at hel
    cases hga : get_all_people none today db with
    | none => rw [hga] at hel; simp at hel
    | some people =>
      rw [hga] at hel
      simp only [Option.map_some'] at hel
      have hel' := Option.some.inj hel
      rw [← hel'] at hq
      have hfq := List.of_mem_filter hq
      simpa using hfq
  refine ⟨?_, ?_, hdays p, ?_⟩
  · rw [← hsends]
    rw [dispatchGroups_sends_mem deliver _ _ hnd]
    constructor
    · rintro ⟨qs, hqs, hUa, hpq⟩
      obtain ⟨hUml, rfl⟩ := (groupByUser_mem el U qs).mp hqs
      have hmf := List.mem_filter.mp hpq
      refine ⟨hUa, hmf.1, by simpa using hmf.2⟩
    · rintro ⟨hUa, hpel, hpU⟩
      refine ⟨el.filter (fun q => q.user_id == U), ?_, hUa, ?_⟩
      · rw [groupByUser_mem]
        exact ⟨by rw [← hpU]; exact List.mem_map_of_mem _ hpel, rfl⟩
      · rw [List.mem_filter]
        exact ⟨hpel, by simpa using hpU⟩
  · intro hUa hpU
    rw [← hsends]
    by_cases hUml : U ∈ el.map PersonView.user_id
    · have hgs : (U, el.filter (fun q => q.user_id == U)) ∈ groupByUser el :=
        (groupByUser_mem el U _).mpr ⟨hUml, rfl⟩
      rw [dispatchGroups_count deliver _ _ hnd U _ p hgs hUa]
      rw [List.count_filter (by simpa using hpU)]
    · have hpel : p ∉ el := by
        intro hpel
        exact hUml (by rw [← hpU]; exact List.mem_map_of_mem _ hpel)
      have hnot : (U, p) ∉ (dispatchGroups deliver (groupByUser el) active).1 := by
        rw [dispatchGroups_sends_mem deliver _ _ hnd]
        rintro ⟨qs, hqs, _, hpq⟩
        obtain ⟨_, rfl⟩ := (groupByUser_mem el U qs).mp hqs
        exact hpel (List.mem_filter.mp hpq).1
      rw [List.count_eq_zero.mpr hnot, List.count_eq_zero.mpr hpel]
  · intro hUa hok
    rw [← hfinal]
    apply dispatchGroups_final_of_all_ok deliver _ _ hnd U hUa
    intro qs hqs q hq
    obtain ⟨_, rfl⟩ := (groupByUser_mem el U qs).mp hqs
    have hmf := List.mem_filter.mp hq
    exact hok q hmf.1 (by simpa using hmf.2)

/-- Single record of user 7 used to witness C7. -/
def c7row : Row := ⟨1, "a", ⟨1990, 3, 15⟩, 7⟩

/-- The view computed for `c7row` on 2024-03-14. -/
def c7v : PersonView := ⟨1, "a", ⟨1990, 3, 15⟩, 7, 33, 1⟩

/-- C7 witness: one qualifying person, owner 7 reachable, delivery succeeds. -/
theorem tick_dispatch_spec_witness :
    (((7 : Int), c7v) ∈ [((7 : Int), c7v)] ↔
        ((7 : Int) ∈ ({7} : Finset Int) ∧ c7v ∈ [c7v] ∧ c7v.user_id = 7))
    ∧ ((7 : Int) ∈ ({7} : Finset Int) → c7v.user_id = 7 →
        [((7 : Int), c7v)].count (7, c7v) = [c7v].count c7v)
    ∧ (c7v ∈ [c7v] → c7v.days_until = 1)
    ∧ ((7 : Int) ∈ ({7} : Finset Int) →
        (∀ q ∈ [c7v], q.user_id = 7 →
          (fun _ _ => true : Int → PersonView → Bool) 7 q = true) →
        (7 : Int) ∈ ({7} : Finset Int)) :=
  tick_dispatch_spec (fun _ _ => true) ⟨2024, 3, 14⟩ [c7row] {7} 7 c7v [c7v]
    [(7, c7v)] {7} (by decide) (by decide)

/-- Two records of the same owner 7, used for C3. -/
def c3row1 : Row := ⟨1, "a", ⟨1990, 3, 15⟩, 7⟩

/-- Second record of owner 7, used for C3. -/
def c3row2 : Row := ⟨2, "b", ⟨1990, 3, 15⟩, 7⟩

/-- The view computed for `c3row1` on 2024-03-14. -/
def c3v1 : PersonView := ⟨1, "a", ⟨1990, 3, 15⟩, 7, 33, 1⟩

/-- The view computed for `c3row2` on 2024-03-14. -/
def c3v2 : PersonView := ⟨2, "b", ⟨1990, 3, 15⟩, 7, 33, 1⟩

theorem c3_fetch : get_people_with_birthday_in_days 1 ⟨2024, 3, 14⟩ [c3row1, c3row2]
    = some [c3v1, c3v2] := by
  have hab : ("a" : String) ≤ "b" := String.le_iff_toList_le.mpr (by decide)
  have hsort : List.insertionSort (fun a b : Row => a.name ≤ b.name) [c3row1, c3row2]
      = [c3row1, c3row2] := by
    simp [List.insertionSort, List.orderedInsert, c3row1, c3row2, hab]
  have hga : get_all_people none ⟨2024, 3, 14⟩ [c3row1, c3row2] = some [c3v1, c3v2] := by
    show (List.insertionSort (fun a b : Row => a.name ≤ b.name) [c3row1, c3row2]).mapM
        (rowToView ⟨2024, 3, 14⟩) = some [c3v1, c3v2]
    rw [hsort]
    decide
  unfold get_people_with_birthday_in_days
  rw [hga]
  simp only [Option.map_some', Option.some.injEq]
  decide

theorem c3_tick : send_birthday_reminders_tick (fun _ _ => false) ⟨2024, 3, 14⟩
    [c3row1, c3row2] {7}
    = some ([((7 : Int), c3v1), (7, c3v2)], (∅ : Finset Int)) := by
  unfold send_birthday_reminders_tick
  rw [c3_fetch]
  simp only [Option.map_some', Option.some.injEq]
  decide

/-- C3 counterexample: owner 7 is reachable, delivery fails for the first of
the owner's two qualifying people, yet the second person is still attempted
(both appear in the attempted list), contradicting the claim that no further
people of that owner are attempted in the same tick. -/
theorem tick_failure_still_attempts_rest :
    send_birthday_reminders_tick (fun _ _ => false) ⟨2024, 3, 14⟩
        [c3row1, c3row2] {7}
      = some ([((7 : Int), c3v1), (7, c3v2)], (∅ : Finset Int))
    ∧ ((7 : Int), c3v2) ∈ [((7 : Int), c3v1), (7, c3v2)] :=
  ⟨c3_tick, by decide⟩

/-- C3 (amended): when a delivery to owner `U` fails during a tick, `U` is
removed from the reachability set, but the remaining qualifying people of `U`
are still attempted in that same tick (the reachability check happens once per
owner, before its group is dispatched). -/
theorem tick_failure_evicts (deliver : Int → PersonView → Bool) (today : Date)
    (db : List Row) (active : Finset Int) (U : Int)
    (el : List PersonView) (sends : List (Int × PersonView)) (final : Finset Int)
    (hel : get_people_with_birthday_in_days 1 today db = some el)
    (hrun : send_birthday_reminders_tick deliver today db active = some (sends, final))
    (hU : U ∈ active)
    (hfail : ∃ p ∈ el, p.user_id = U ∧ deliver U p = false) :
    U ∉ final ∧ ∀ p ∈ el, p.user_id = U → (U, p) ∈ sends := by
  unfold send_birthday_reminders_tick at hrun
  rw [hel] at hrun
  simp only [Option.map_some'] at hrun
  have hp2 := Option.some.inj hrun
  have hsends : (dispatchGroups deliver (groupByUser el) active).1 = sends :=
    congrArg Prod.fst hp2
  have hfinal : (dispatchGroups deliver (groupByUser el) active).2 = final :=
    congrArg Prod.snd hp2
  have hnd := groupByUser_keys_nodup el
  obtain ⟨p0, hp0el, hp0U, hp0f⟩ := hfail
  have hUml : U ∈ el.map PersonView.user_id := by
    rw [← hp0U]
    exact List.mem_map_of_mem _ hp0el
  have hgs : (U, el.filter (fun q => q.user_id == U)) ∈ groupByUser el :=
    (groupByUser_mem el U _).mpr ⟨hUml, rfl⟩
  constructor
  · rw [← hfinal]
    apply dispatchGroups_evicts deliver _ _ hnd U _ hgs hU
    exact ⟨p0, List.mem_filter.mpr ⟨hp0el, by simpa using hp0U⟩, hp0f⟩
  · intro p hpel hpU
    rw [← hsends]
    rw [dispatchGroups_sends_mem deliver _ _ hnd]
    exact ⟨el.filter (fun q => q.user_id == U), hgs, hU,
      List.mem_filter.mpr ⟨hpel, by simpa using hpU⟩⟩

/-- C3 witness: the two-person scenario, instantiating the amended theorem. -/
theorem tick_failure_evicts_witness :
    (7 : Int) ∉ (∅ : Finset Int)
    ∧ ∀ p ∈ [c3v1, c3v2], p.user_id = 7 →
        ((7 : Int), p) ∈ [((7 : Int), c3v1), (7, c3v2)] :=
  tick_failure_evicts (fun _ _ => false) ⟨2024, 3, 14⟩ [c3row1, c3row2] {7} 7
    [c3v1, c3v2] [(7, c3v1), (7, c3v2)] ∅ c3_fetch c3_tick (by decide)
    ⟨c3v1, by decide, by decide, rfl⟩

/-! ## Add-person dialog: `process_date` from `main.py` -/

/-- FSM states of the add-person dialog (`AddPersonStates` plus the cleared
state after `state.clear()`). -/
inductive FsmState where
  | waiting_for_name
  | waiting_for_date
  | cleared
deriving DecidableEq, Repr

/-- The reply sent back to the user by `process_date`. -/
inductive Reply where
  | format_error
  | future_date_error
  | added (name : String)
  | add_failed
deriving DecidableEq, Repr

/-- The `process_date` handler of `main.py`, entered in state
`waiting_for_date` with the collected `name`.  `parsed` is the result of
`strptime` on the user's text (`none` = `ValueError`); `addOk` is the boolean
returned by `db.add_person`; `newId` the id the row receives.  On an
unparseable or future date the handler answers an error and returns without
clearing the state, so the user is re-prompted; otherwise it inserts and
clears the state. -/
def process_date (today : Date) (parsed : Option Date) (name : String) (uid : Int)
    (newId : Int) (addOk : Bool) (db : List Row) : List Row × FsmState × Reply :=
  match parsed with
  | none => (db, FsmState.waiting_for_date, Reply.format_error)
  | some bd =>
    if dateLt today bd then (db, FsmState.waiting_for_date, Reply.future_date_error)
    else if addOk then
      (db ++ [⟨newId, name, bd, uid⟩], FsmState.cleared, Reply.added name)
    else (db, FsmState.cleared, Reply.add_failed)

/-- C9: a submitted birth date strictly after the current date is rejected —
no record is created, the stored data is unchanged, the dialog remains in the
waiting-for-date state (the user is re-prompted), and the future-date error is
reported. -/
theorem process_date_rejects_future (today bd : Date) (name : String) (uid newId : Int)
    (addOk : Bool) (db : List Row) (h : dateLt today bd) :
    process_date today (some bd) name uid newId addOk db
      = (db, FsmState.waiting_for_date, Reply.future_date_error) := by
  show (if dateLt today bd then (db, FsmState.waiting_for_date, Reply.future_date_error)
      else if addOk then
        (db ++ [⟨newId, name, bd, uid⟩], FsmState.cleared, Reply.added name)
      else (db, FsmState.cleared, Reply.add_failed))
    = (db, FsmState.waiting_for_date, Reply.future_date_error)
  rw [if_pos h]

/-- C9 witness: submitting 2025-01-01 on 2024-03-14. -/
theorem process_date_rejects_future_witness :
    process_date ⟨2024, 3, 14⟩ (some ⟨2025, 1, 1⟩) "ab" 7 1 true []
      = ([], FsmState.waiting_for_date, Reply.future_date_error) :=
  process_date_rejects_future ⟨2024, 3, 14⟩ ⟨2025, 1, 1⟩ "ab" 7 1 true [] (by decide)
